import Mathlib

/-
  Verification development for the PerformanceTracker component
  (VideoCommon/PerformanceTracker.cpp): a fixed-capacity sliding-window
  performance-sample tracker with running totals, a simple moving average,
  an exponentially smoothed rate, and a lazily cached standard deviation.

  Modelling conventions:
  * `DT` (a 64-bit nanosecond tick count in the source) is modelled as `Int`;
    tick arithmetic in the source cannot overflow in any scenario considered
    here, so plain integers are faithful.
  * IEEE doubles are modelled by `FVal`: either a finite real number or the
    collapsed non-finite class (inf / nan).  The only operation that can
    produce a non-finite value in the modelled code path is the division
    `QueueSize() / m_dt_total.measurement` with a zero denominator, and once
    a non-finite value enters the one-pole filter the result stays
    non-finite; `FVal` captures exactly this.
  * The ring-buffer capacity `MAX_DT_QUEUE_SIZE` and the index helpers
    `IncrementIndex` / `GetDifference` live in the header, which is not part
    of the supplied sources; they are modelled from the spec (ring buffer
    with begin/end indices modulo the fixed capacity N), with the capacity
    kept as a parameter `N`.
  * `Clock::now()` is passed in explicitly as an integer timestamp; the
    mutex, the log file and the plot export are omitted (no claim concerns
    them).
-/

namespace PerfTrack

/-- A `(duration, measurement)` sample, mirroring
`PerformanceTracker::TimeDataPair` (both fields are `DT` tick counts). -/
structure TimeDataPair where
  duration : Int
  measurement : Int
deriving DecidableEq, Repr

/-- Component-wise addition, mirroring `TimeDataPair::operator+=`. -/
def TimeDataPair.add (a b : TimeDataPair) : TimeDataPair :=
  ⟨a.duration + b.duration, a.measurement + b.measurement⟩

/-- Component-wise subtraction, mirroring `TimeDataPair::operator-=`. -/
def TimeDataPair.sub (a b : TimeDataPair) : TimeDataPair :=
  ⟨a.duration - b.duration, a.measurement - b.measurement⟩

/-- An IEEE double, abstracted to either a finite real value or the
collapsed class of non-finite values (infinities and nan). -/
inductive FVal where
  | fin (x : ℝ)
  | nonfin
deriving Inhabited

/-- `DT_s` conversion: a nanosecond tick count as a real number of seconds
(mirrors `DT_s(x)` on a `DT` value). -/
noncomputable def DTs (x : Int) : ℝ := (x : ℝ) / 1000000000

/-- The mutable state of a `PerformanceTracker`, excluding the EMA double
(kept separately so that the queue-side state stays executable).  The ring
buffer `m_dt_queue` is modelled as a total function on indices; only the
slots below the capacity are ever read. -/
structure Tracker where
  dt_total : TimeDataPair
  dt_queue : Nat → TimeDataPair
  dt_queue_begin : Nat
  dt_queue_end : Nat
  last_time : Int
  dt_avg : Int
  dt_std : Option Int
  paused : Bool

/-- The full tracker state: the queue-side state together with the
exponentially smoothed rate `m_hz_avg` (a double). -/
structure PerfState where
  core : Tracker
  hz_avg : FVal

/-- Modelled from the spec: the header-only index helper advancing a ring
index modulo the capacity `N` (`(1 + index) % size`). -/
def IncrementIndex (N i : Nat) : Nat := (i + 1) % N

/-- Modelled from the spec: the header-only helper computing the distance
from `b` to `e` around the ring of capacity `N`. -/
def GetDifference (N b e : Nat) : Nat := (N + e - b) % N

/-- `PerformanceTracker::QueueSize`. -/
def QueueSize (N : ℕ) (c : Tracker) : Nat :=
  GetDifference N c.dt_queue_begin c.dt_queue_end

/-- `PerformanceTracker::QueueEmpty` (begin == end). -/
def QueueEmpty (c : Tracker) : Bool :=
  c.dt_queue_begin == c.dt_queue_end

/-- `PerformanceTracker::QueueTop`: the oldest sample. -/
def QueueTop (c : Tracker) : TimeDataPair :=
  c.dt_queue c.dt_queue_begin

/-- `PerformanceTracker::QueuePush`: write the new sample at the end slot
and advance the end index. -/
def QueuePush (N : ℕ) (c : Tracker) (dp : TimeDataPair) : Tracker :=
  { c with
    dt_queue := fun j => if j = c.dt_queue_end then dp else c.dt_queue j,
    dt_queue_end := IncrementIndex N c.dt_queue_end }

/-- `m_dt_total -= QueuePop()`: advance the begin index and subtract the
popped (oldest) sample from the running totals. -/
def popAndSub (N : ℕ) (c : Tracker) : Tracker :=
  { c with
    dt_queue_begin := IncrementIndex N c.dt_queue_begin,
    dt_total := c.dt_total.sub (QueueTop c) }

/-- `PerformanceTracker::QueueClear`. -/
def QueueClear (c : Tracker) : Tracker :=
  { c with dt_total := ⟨0, 0⟩, dt_queue_begin := 0, dt_queue_end := 0 }

/-- The sample built at the top of `Count`:
`{is_continuous_duration ? value : duration, value}` where
`duration = now - m_last_time` and `value = custom_measurement.value_or(duration)`. -/
def dataPoint (c : Tracker) (now : Int) (custom : Option Int)
    (is_continuous_duration : Bool) : TimeDataPair :=
  let duration := now - c.last_time
  let value := custom.getD duration
  ⟨if is_continuous_duration then value else duration, value⟩

/-- Lines 65-69 of `Count`: push the new sample, add it to the running
totals, and if the push made the indices coincide (the buffer wrapped to
capacity) silently pop the oldest sample. -/
def pushStage (N : ℕ) (c : Tracker) (dp : TimeDataPair) : Tracker :=
  let c1 := QueuePush N c dp
  let c2 := { c1 with dt_total := c1.dt_total.add dp }
  if c2.dt_queue_begin = c2.dt_queue_end then popAndSub N c2 else c2

/-- Lines 71-72 of `Count`: pop the oldest sample while
`window <= m_dt_total.duration - QueueTop().duration`.  The source loop has
no explicit bound; under the queue invariant and a positive window it pops
at most `QueueSize - 1` times, so fuel `N` makes the model extensionally
equal to the source loop there. -/
def evictLoop (N : ℕ) (window : Int) : Nat → Tracker → Tracker
  | 0, c => c
  | fuel + 1, c =>
    if window ≤ c.dt_total.duration - (QueueTop c).duration then
      evictLoop N window fuel (popAndSub N c)
    else c

/-- Lines 76 and 92 of `Count`: recompute the simple moving average
`m_dt_total.measurement / QueueSize()` (64-bit division truncating toward
zero) and invalidate the cached standard deviation. -/
def updAvgStd (N : ℕ) (c : Tracker) : Tracker :=
  { c with
    dt_avg := Int.tdiv c.dt_total.measurement (QueueSize N c),
    dt_std := none }

/-- The queue-side effect of a non-paused `Count` once the data point is
built: set `m_last_time`, push/fix up/evict, recompute the simple moving
average, and invalidate the cached standard deviation. -/
def CountCoreFrom (N : ℕ) (c : Tracker) (now : Int) (dp : TimeDataPair)
    (window : Int) : Tracker :=
  updAvgStd N (evictLoop N window N (pushStage N { c with last_time := now } dp))

/-- The queue-side part of `PerformanceTracker::Count` (paused check
included). -/
def CountCore (N : ℕ) (c : Tracker) (now : Int) (custom : Option Int)
    (is_continuous_duration : Bool) (window : Int) : Tracker :=
  if c.paused then c
  else CountCoreFrom N c now (dataPoint c now custom is_continuous_duration) window

/-- `SAMPLE_RC_RATIO` (source name), the fixed ratio between the EMA time
constant and the window length. -/
noncomputable def sampleRcRatio : ℝ := 0.33

/-- The smoothing factor of the one-pole filter:
`a = 1 - exp(-(DT_s(data_point.duration) / rc))` with
`rc = SAMPLE_RC_RATIO * window`.  This is the exact-real idealization of the
double computation: here `alphaOf` is always strictly below 1, whereas the
double `1.0 - std::exp(-x)` rounds to exactly 1.0 once `x` exceeds about
37.43 (sample duration beyond roughly 12 times the window), so no theorem
in this development relies on `alphaOf` being different from 1. -/
noncomputable def alphaOf (window d : Int) : ℝ :=
  1 - Real.exp (-(DTs d / (sampleRcRatio * DTs window)))

/-- The instantaneous rate `hz = DT_s(QueueSize()) / m_dt_total.measurement`
fed into the EMA: a finite real exactly when the measurement total is
non-zero (the numerator `QueueSize()` is at least 1 at this point), and the
non-finite class (IEEE infinity) when the measurement total is zero. -/
noncomputable def instantHz (N : ℕ) (c : Tracker) : FVal :=
  if c.dt_total.measurement = 0 then FVal.nonfin
  else FVal.fin ((QueueSize N c : ℝ) / DTs c.dt_total.measurement)

/-- The EMA update on lines 86-90 of `Count`: if the stored average is
finite it moves by `a * (hz - avg)`; a non-finite stored average is
hard-reset to `hz`.  A finite average absorbing a non-finite rate becomes
non-finite (in IEEE arithmetic `a * (±inf - v)` is `±inf` or `nan`, and
adding it to a finite value stays non-finite). -/
def emaStep : FVal → ℝ → FVal → FVal
  | FVal.fin v, a, FVal.fin h => FVal.fin (v + a * (h - v))
  | FVal.fin _, _, FVal.nonfin => FVal.nonfin
  | FVal.nonfin, _, hz => hz

/-- `PerformanceTracker::Count`.  The effective window length (the value of
`GetSampleWindow()`) and the current clock reading are passed in
explicitly. -/
noncomputable def Count (N : ℕ) (s : PerfState) (now : Int)
    (custom : Option Int) (is_continuous_duration : Bool) (window : Int) :
    PerfState :=
  if s.core.paused then s
  else
    let dp := dataPoint s.core now custom is_continuous_duration
    let c' := CountCoreFrom N s.core now dp window
    ⟨c', emaStep s.hz_avg (alphaOf window dp.duration) (instantHz N c')⟩

/-- `PerformanceTracker::Reset`: clear the queue, re-anchor the clock, and
zero the averages; the paused flag is untouched. -/
def Reset (s : PerfState) (now : Int) : PerfState :=
  ⟨{ QueueClear s.core with last_time := now, dt_avg := 0, dt_std := none },
    FVal.fin 0⟩

/-- The `TimePoint::max()` sentinel (s64 nanosecond ticks). -/
def TimePointMax : Int := 9223372036854775807

/-- `PerformanceTracker::SetPaused`: record the flag and either park the
last-sample time at the far-future sentinel or re-anchor it to now. -/
def SetPaused (s : PerfState) (p : Bool) (now : Int) : PerfState :=
  ⟨{ s.core with paused := p, last_time := if p then TimePointMax else now },
    s.hz_avg⟩

/-- Modelled from the spec: a default-constructed member state (the header
with the member initializers is not part of the supplied sources; the spec
fixes `paused = false` initially and the constructor immediately calls
`Reset`). -/
def initCore : Tracker :=
  ⟨⟨0, 0⟩, fun _ => ⟨0, 0⟩, 0, 0, 0, 0, none, false⟩

/-- A freshly constructed tracker: the constructor body calls `Reset()`. -/
def initState (now : Int) : PerfState :=
  Reset ⟨initCore, FVal.fin 0⟩ now

/-- `PerformanceTracker::GetHzAvg`. -/
def GetHzAvg (s : PerfState) : FVal := s.hz_avg

/-- `PerformanceTracker::GetDtAvg`. -/
def GetDtAvg (s : PerfState) : Int := s.core.dt_avg

/-- `PerformanceTracker::GetSampleWindow`: the explicit override if one was
given, otherwise the live config value floored at 1, converted from
microseconds to ticks (nanoseconds). -/
def GetSampleWindow (override : Option Int) (iPerfSampleUSec : Int) : Int :=
  1000 * override.getD (max 1 iPerfSampleUSec)

/-- The accumulation loop of `GetDtStd`: starting at index `i`, while the
index has not reached `endI`, add the squared difference (in seconds)
between the slot's measurement and the stored average, stepping the index
around the ring.  Fuel `N` suffices under the queue invariant. -/
noncomputable def stdLoop (N : ℕ) (q : Nat → TimeDataPair) (endI : Nat)
    (avg : Int) : Nat → Nat → ℝ
  | 0, _ => 0
  | fuel + 1, i =>
    if i = endI then 0
    else (DTs ((q i).measurement - avg)) ^ 2 + stdLoop N q endI avg fuel (IncrementIndex N i)

/-- `PerformanceTracker::GetDtStd`: return the cached value if present;
an empty window caches and returns zero; otherwise cache and return
`duration_cast<DT>(DT_s(sqrt(total / QueueSize())))`.  The cast truncates
toward zero, which on the non-negative square root is the floor of the
value scaled to nanoseconds. -/
noncomputable def GetDtStd (N : ℕ) (c : Tracker) : Tracker × Int :=
  match c.dt_std with
  | some v => (c, v)
  | none =>
    if c.dt_queue_begin = c.dt_queue_end then
      ({ c with dt_std := some 0 }, 0)
    else
      let total := stdLoop N c.dt_queue c.dt_queue_end c.dt_avg N c.dt_queue_begin
      let v : Int := Int.floor (Real.sqrt (total / (QueueSize N c : ℝ)) * 1000000000)
      ({ c with dt_std := some v }, v)

/-- The samples currently retained in the window, read from the ring buffer
between the begin and end indices: element `k` sits at slot
`(begin + k) % N`. -/
def queueList (N : ℕ) (c : Tracker) : List TimeDataPair :=
  (List.range (QueueSize N c)).map (fun k => c.dt_queue ((c.dt_queue_begin + k) % N))

/-- Sum of the `duration` components of a sample list. -/
def durSum (l : List TimeDataPair) : Int := (l.map TimeDataPair.duration).sum

/-- Sum of the `measurement` components of a sample list. -/
def measSum (l : List TimeDataPair) : Int := (l.map TimeDataPair.measurement).sum

/-- The queue invariant: the ring indices are in range and the running
totals equal the exact component-wise sums over the retained samples. -/
def QueueInv (N : ℕ) (c : Tracker) : Prop :=
  c.dt_queue_begin < N ∧ c.dt_queue_end < N ∧
  c.dt_total.duration = durSum (queueList N c) ∧
  c.dt_total.measurement = measSum (queueList N c)

instance (N : ℕ) (c : Tracker) : Decidable (QueueInv N c) := by
  unfold QueueInv; infer_instance

/-- The full state invariant: the queue invariant together with consistency
of the stored simple moving average (`Int.tdiv _ 0 = 0` covers the empty
window left by `Reset`). -/
def Inv (N : ℕ) (c : Tracker) : Prop :=
  QueueInv N c ∧ c.dt_avg = Int.tdiv c.dt_total.measurement (QueueSize N c)

instance (N : ℕ) (c : Tracker) : Decidable (Inv N c) := by
  unfold Inv; infer_instance

/-- States reachable by any sequence of construction, `Reset`, non-paused
ingestion with a positive effective window, pause/resume transitions, and
the mutating accessor `GetDtStd`. -/
inductive Reach (N : ℕ) : PerfState → Prop
  | init (now : Int) : Reach N (initState now)
  | reset (s : PerfState) (now : Int) : Reach N s → Reach N (Reset s now)
  | count (s : PerfState) (now : Int) (custom : Option Int)
      (ic : Bool) (window : Int) : Reach N s → 0 < window →
      Reach N (Count N s now custom ic window)
  | pause (s : PerfState) (p : Bool) (now : Int) : Reach N s →
      Reach N (SetPaused s p now)
  | std (s : PerfState) : Reach N s →
      Reach N ⟨(GetDtStd N s.core).1, s.hz_avg⟩

/-- Concrete run for the rate computation: a fresh tracker (reset at time 0),
one ingestion at time 16 with a custom measurement of 50 in plain
(non-continuous) mode; the window records `(duration = 16, measurement = 50)`. -/
noncomputable def exC1 : Tracker :=
  (Count 8 (initState 0) 16 (some 50) false 1000000).core

/-- Concrete run of the spec's eviction scenario: window length 10,
three ingested samples of duration 4 each (measurement = duration). -/
noncomputable def exC5 : Tracker :=
  (Count 8 (Count 8 (Count 8 (initState 0) 4 none false 10) 8 none false 10)
    12 none false 10).core

/-- Concrete run that wraps a capacity-4 ring: four unit-duration ingestions
under a huge window (10^9), so the duration-based eviction rule never
fires. -/
noncomputable def exC8 : Tracker :=
  (Count 4 (Count 4 (Count 4 (Count 4 (initState 0) 1 none false 1000000000)
    2 none false 1000000000) 3 none false 1000000000) 4 none false 1000000000).core

/-- A concrete full ring (capacity 4, three retained unit samples, one free
slot) satisfying the queue invariant. -/
def exFull : Tracker :=
  ⟨⟨3, 3⟩, fun _ => ⟨1, 1⟩, 0, 3, 4, 1, none, false⟩

/-- A concrete tracker holding two samples with equal measurements (5),
consistent running totals and average, and an empty stddev cache. -/
def exEq : PerfState :=
  ⟨⟨⟨2, 10⟩, fun _ => ⟨1, 5⟩, 0, 2, 99, 5, none, false⟩, FVal.fin 0⟩

/-- A concrete paused tracker. -/
def exPaused : PerfState := SetPaused (initState 0) true 5

end PerfTrack

namespace PerfTrack

/-- A modulus applied to a value below twice the modulus either leaves it or
subtracts the modulus once. -/
lemma mod_two_cases (N x : ℕ) (h : x < 2 * N) :
    x % N = if x < N then x else x - N := by
  rcases Nat.lt_or_ge x N with h1 | h1
  · rw [Nat.mod_eq_of_lt h1, if_pos h1]
  · rw [if_neg (by omega), Nat.mod_eq_sub_mod h1, Nat.mod_eq_of_lt (by omega)]

/-- The ring distance is always below the capacity. -/
lemma QueueSize_lt (N : ℕ) (c : Tracker) (hN : 0 < N) : QueueSize N c < N :=
  Nat.mod_lt _ hN

/-- The ring distance from an index to itself is zero. -/
lemma GetDifference_self (N x : Nat) : GetDifference N x x = 0 := by
  unfold GetDifference
  rw [Nat.add_sub_cancel, Nat.mod_self]

/-- With in-range indices, a zero ring distance forces the indices to be
equal. -/
lemma GetDifference_eq_zero (N b e : Nat) (hb : b < N) (he : e < N)
    (h : GetDifference N b e = 0) : b = e := by
  unfold GetDifference at h
  rw [mod_two_cases N _ (by omega)] at h
  split at h <;> omega

/-- The end index is the begin index advanced by the ring distance. -/
lemma end_eq_add (N b e : Nat) (hb : b < N) (he : e < N) :
    e = (b + GetDifference N b e) % N := by
  unfold GetDifference
  rw [mod_two_cases N (N + e - b) (by omega),
    mod_two_cases N (b + if N + e - b < N then N + e - b else N + e - b - N)
      (by split <;> omega)]
  split <;> split <;> omega

/-- Stepping the begin index by `k` positions lands on distinct slots for
distinct `k` below the capacity. -/
lemma idx_inj (N b k j : Nat) (hk : k < N) (hj : j < N)
    (h : (b + k) % N = (b + j) % N) : k = j := by
  have h1 : (b + k) % N = (b % N + k) % N := by
    rw [Nat.mod_add_mod]
  have h2 : (b + j) % N = (b % N + j) % N := by
    rw [Nat.mod_add_mod]
  have hbN : b % N < N := Nat.mod_lt _ (by omega)
  rw [h1, h2, mod_two_cases N (b % N + k) (by omega),
    mod_two_cases N (b % N + j) (by omega)] at h
  split at h <;> split at h <;> omega

/-- Advancing the end index increments the ring distance modulo `N`. -/
lemma size_inc (N b e : Nat) (hN : 0 < N) (hb : b < N) (he : e < N) :
    GetDifference N b ((e + 1) % N) = (GetDifference N b e + 1) % N := by
  unfold GetDifference
  rw [mod_two_cases N (e + 1) (by omega)]
  rw [mod_two_cases N (N + e - b) (by omega)]
  rw [mod_two_cases N (N + (if e + 1 < N then e + 1 else e + 1 - N) - b)
    (by split <;> omega)]
  rw [mod_two_cases N ((if N + e - b < N then N + e - b else N + e - b - N) + 1)
    (by split <;> omega)]
  split <;> split <;> split <;> split <;> omega

/-- Advancing the begin index decrements a positive ring distance. -/
lemma size_dec (N b e : Nat) (hb : b < N) (he : e < N)
    (h1 : 1 ≤ GetDifference N b e) :
    GetDifference N ((b + 1) % N) e = GetDifference N b e - 1 := by
  unfold GetDifference at h1 ⊢
  rw [mod_two_cases N (b + 1) (by omega)]
  rw [mod_two_cases N (N + e - b) (by omega)] at h1 ⊢
  rw [mod_two_cases N (N + e - (if b + 1 < N then b + 1 else b + 1 - N))
    (by split <;> omega)]
  split at h1 <;> split <;> split <;> omega

/-- The retained-sample list has exactly `QueueSize` elements. -/
lemma queueList_length (N : ℕ) (c : Tracker) :
    (queueList N c).length = QueueSize N c := by
  simp [queueList]

/-- A nonempty window is the oldest sample followed by the window left after
popping it: `popAndSub` only moves the begin index (and adjusts totals),
so its retained list is the tail. -/
lemma queueList_cons (N : ℕ) (c : Tracker) (hb : c.dt_queue_begin < N)
    (he : c.dt_queue_end < N) (hs : 1 ≤ QueueSize N c) :
    queueList N c = QueueTop c :: queueList N (popAndSub N c) := by
  have hpop : QueueSize N (popAndSub N c) = QueueSize N c - 1 := by
    unfold QueueSize at hs ⊢
    exact size_dec N _ _ hb he hs
  unfold queueList
  rw [hpop]
  obtain ⟨m, hm⟩ : ∃ m, QueueSize N c = m + 1 := ⟨QueueSize N c - 1, by omega⟩
  rw [hm]
  simp only [Nat.add_sub_cancel]
  rw [List.range_succ_eq_map, List.map_cons, List.map_map]
  congr 1
  · show c.dt_queue ((c.dt_queue_begin + 0) % N) = QueueTop c
    rw [Nat.add_zero, Nat.mod_eq_of_lt hb]
    rfl
  · apply List.map_congr_left
    intro k _
    show c.dt_queue ((c.dt_queue_begin + (k + 1)) % N)
        = (popAndSub N c).dt_queue (((popAndSub N c).dt_queue_begin + k) % N)
    show c.dt_queue ((c.dt_queue_begin + (k + 1)) % N)
        = c.dt_queue (((c.dt_queue_begin + 1) % N + k) % N)
    rw [Nat.mod_add_mod, Nat.add_assoc, Nat.add_comm 1 k]

/-- Popping preserves the queue invariant on a nonempty window and subtracts
the popped head from the running totals. -/
lemma queueInv_pop (N : ℕ) (c : Tracker) (hq : QueueInv N c)
    (hs : 1 ≤ QueueSize N c) : QueueInv N (popAndSub N c) := by
  obtain ⟨hb, he, hd, hm⟩ := hq
  have hcons := queueList_cons N c hb he hs
  refine ⟨Nat.mod_lt _ (by omega), he, ?_, ?_⟩
  · show c.dt_total.duration - (QueueTop c).duration = _
    rw [hd, hcons]
    simp [durSum, TimeDataPair.sub]
  · show c.dt_total.measurement - (QueueTop c).measurement = _
    rw [hm, hcons]
    simp [measSum, TimeDataPair.sub]

/-- Pushing into a ring with at least two free slots appends the sample at
the logical end: no fix-up pop happens, the size grows by one, and the
totals grow by the new sample. -/
lemma pushStage_small (N : ℕ) (c : Tracker) (dp : TimeDataPair)
    (hb : c.dt_queue_begin < N) (he : c.dt_queue_end < N)
    (hlt : QueueSize N c + 1 < N) :
    queueList N (pushStage N c dp) = queueList N c ++ [dp] ∧
    QueueSize N (pushStage N c dp) = QueueSize N c + 1 ∧
    (pushStage N c dp).dt_total = c.dt_total.add dp ∧
    (pushStage N c dp).dt_queue_begin = c.dt_queue_begin ∧
    (pushStage N c dp).dt_queue_end < N ∧
    (pushStage N c dp).last_time = c.last_time ∧
    (pushStage N c dp).paused = c.paused ∧
    (pushStage N c dp).dt_avg = c.dt_avg ∧
    (pushStage N c dp).dt_std = c.dt_std := by
  have hN : 0 < N := by omega
  have hsz : GetDifference N c.dt_queue_begin ((c.dt_queue_end + 1) % N)
      = QueueSize N c + 1 := by
    rw [size_inc N _ _ hN hb he]
    exact Nat.mod_eq_of_lt hlt
  have hne : ¬ (c.dt_queue_begin = (c.dt_queue_end + 1) % N) := by
    intro hcontra
    have h0 : GetDifference N c.dt_queue_begin ((c.dt_queue_end + 1) % N) = 0 := by
      rw [← hcontra]; exact GetDifference_self N _
    omega
  have hpush : pushStage N c dp =
      { c with
        dt_queue := fun j => if j = c.dt_queue_end then dp else c.dt_queue j,
        dt_queue_end := (c.dt_queue_end + 1) % N,
        dt_total := c.dt_total.add dp } := by
    unfold pushStage QueuePush IncrementIndex
    simp only [if_neg hne]
  rw [hpush]
  refine ⟨?_, hsz, rfl, rfl, Nat.mod_lt _ hN, rfl, rfl, rfl, rfl⟩
  show List.map _ (List.range (GetDifference N c.dt_queue_begin ((c.dt_queue_end + 1) % N)))
      = _ ++ [dp]
  rw [hsz, List.range_succ, List.map_append, List.map_cons, List.map_nil]
  have hend : c.dt_queue_end = (c.dt_queue_begin + QueueSize N c) % N :=
    end_eq_add N _ _ hb he
  congr 1
  · apply List.map_congr_left
    intro k hk
    have hk' : k < QueueSize N c := List.mem_range.1 hk
    have hkne : (c.dt_queue_begin + k) % N ≠ c.dt_queue_end := by
      rw [hend]
      intro hcontra
      have := idx_inj N c.dt_queue_begin k (QueueSize N c)
        (by omega) (by omega) hcontra
      omega
    show (if (c.dt_queue_begin + k) % N = c.dt_queue_end then dp
        else c.dt_queue ((c.dt_queue_begin + k) % N))
      = c.dt_queue ((c.dt_queue_begin + k) % N)
    rw [if_neg hkne]
  · rw [← hend]
    simp

/-- Pushing into a ring whose next slot is the last free one wraps the end
index onto the begin index; the fix-up pop then silently discards the
oldest sample.  The resulting window is the old tail followed by the new
sample, the size stays at capacity minus one, and the totals gain the new
sample and lose the discarded one. -/
lemma pushStage_wrap (N : ℕ) (c : Tracker) (dp : TimeDataPair) (h2 : 2 ≤ N)
    (hb : c.dt_queue_begin < N) (he : c.dt_queue_end < N)
    (heq : QueueSize N c + 1 = N) :
    queueList N (pushStage N c dp) = (queueList N c).tail ++ [dp] ∧
    QueueSize N (pushStage N c dp) = N - 1 ∧
    (pushStage N c dp).dt_total = (c.dt_total.add dp).sub (QueueTop c) ∧
    (pushStage N c dp).last_time = c.last_time ∧
    (pushStage N c dp).paused = c.paused ∧
    (pushStage N c dp).dt_queue_begin < N ∧
    (pushStage N c dp).dt_queue_end < N ∧
    (pushStage N c dp).dt_avg = c.dt_avg ∧
    (pushStage N c dp).dt_std = c.dt_std := by
  have hN : 0 < N := by omega
  have hs1 : 1 ≤ QueueSize N c := by omega
  have hsz0 : GetDifference N c.dt_queue_begin ((c.dt_queue_end + 1) % N) = 0 := by
    rw [size_inc N _ _ hN hb he]
    unfold QueueSize at heq
    rw [heq, Nat.mod_self]
  have hwrap : c.dt_queue_begin = (c.dt_queue_end + 1) % N :=
    GetDifference_eq_zero N _ _ hb (Nat.mod_lt _ hN) hsz0
  have hbne : c.dt_queue_begin ≠ c.dt_queue_end := by
    intro hcontra
    have := GetDifference_self N c.dt_queue_begin
    unfold QueueSize at heq
    rw [← hcontra] at heq
    omega
  have hpush : pushStage N c dp =
      { c with
        dt_queue := fun j => if j = c.dt_queue_end then dp else c.dt_queue j,
        dt_queue_begin := (c.dt_queue_begin + 1) % N,
        dt_queue_end := (c.dt_queue_end + 1) % N,
        dt_total := (c.dt_total.add dp).sub
          (if c.dt_queue_begin = c.dt_queue_end then dp else c.dt_queue c.dt_queue_begin) } := by
    unfold pushStage QueuePush popAndSub QueueTop IncrementIndex
    simp only [if_pos hwrap]
  have hend : c.dt_queue_end = (c.dt_queue_begin + (N - 1)) % N := by
    have h4 := end_eq_add N c.dt_queue_begin c.dt_queue_end hb he
    have h3 : GetDifference N c.dt_queue_begin c.dt_queue_end = N - 1 := by
      unfold QueueSize at heq
      omega
    rw [h3] at h4
    exact h4
  have hszfin : GetDifference N ((c.dt_queue_begin + 1) % N) ((c.dt_queue_end + 1) % N)
      = N - 1 := by
    rw [← hwrap]
    unfold GetDifference
    rw [mod_two_cases N (c.dt_queue_begin + 1) (by omega)]
    rw [mod_two_cases N (N + c.dt_queue_begin -
      (if c.dt_queue_begin + 1 < N then c.dt_queue_begin + 1 else c.dt_queue_begin + 1 - N))
      (by split <;> omega)]
    split <;> split <;> omega
  rw [hpush]
  refine ⟨?_, ?_, ?_, rfl, rfl, Nat.mod_lt _ hN, Nat.mod_lt _ hN, rfl, rfl⟩
  case refine_2 => exact hszfin
  case refine_3 =>
    show (c.dt_total.add dp).sub
        (if c.dt_queue_begin = c.dt_queue_end then dp else c.dt_queue c.dt_queue_begin)
      = (c.dt_total.add dp).sub (QueueTop c)
    rw [if_neg hbne]
    rfl
  have hcons := queueList_cons N c hb he hs1
  have hpopsz : QueueSize N (popAndSub N c) = N - 2 := by
    unfold QueueSize
    show GetDifference N ((c.dt_queue_begin + 1) % N) c.dt_queue_end = N - 2
    rw [size_dec N _ _ hb he hs1]
    unfold QueueSize at heq
    omega
  rw [hcons]
  show List.map _ (List.range (GetDifference N ((c.dt_queue_begin + 1) % N)
    ((c.dt_queue_end + 1) % N))) = _
  rw [hszfin]
  simp only [List.tail_cons]
  obtain ⟨m, hm⟩ : ∃ m, N - 1 = m + 1 := ⟨N - 2, by omega⟩
  rw [hm, List.range_succ, List.map_append, List.map_cons, List.map_nil]
  congr 1
  · unfold queueList
    rw [hpopsz]
    have hm2 : m = N - 2 := by omega
    rw [hm2]
    apply List.map_congr_left
    intro k hk
    have hk' : k < N - 2 := List.mem_range.1 hk
    show (if ((c.dt_queue_begin + 1) % N + k) % N = c.dt_queue_end then dp
        else c.dt_queue (((c.dt_queue_begin + 1) % N + k) % N))
      = c.dt_queue (((popAndSub N c).dt_queue_begin + k) % N)
    have hidx : ((c.dt_queue_begin + 1) % N + k) % N
        = (c.dt_queue_begin + (k + 1)) % N := by
      rw [Nat.mod_add_mod, Nat.add_assoc, Nat.add_comm 1 k]
    have hkne : ((c.dt_queue_begin + 1) % N + k) % N ≠ c.dt_queue_end := by
      rw [hidx, hend]
      intro hcontra
      have := idx_inj N c.dt_queue_begin (k + 1) (N - 1)
        (by omega) (by omega) hcontra
      omega
    rw [if_neg hkne]
    show c.dt_queue _ = c.dt_queue (((c.dt_queue_begin + 1) % N + k) % N)
    rfl
  · have hlast : ((c.dt_queue_begin + 1) % N + m) % N = c.dt_queue_end := by
      rw [Nat.mod_add_mod, Nat.add_assoc, Nat.add_comm 1 m, hend]
      congr 1
      omega
    rw [hlast]
    simp

/-- If the eviction condition already fails, the loop leaves the state
untouched for any fuel. -/
lemma evictLoop_stop (N : ℕ) (window : Int) (c : Tracker) (fuel : Nat)
    (h : ¬ window ≤ c.dt_total.duration - (QueueTop c).duration) :
    evictLoop N window fuel c = c := by
  cases fuel
  · rfl
  · simp only [evictLoop, if_neg h]

/-- Pushing a sample preserves the queue invariant and leaves the window
nonempty, whether or not the ring wraps. -/
lemma pushStage_inv (N : ℕ) (c : Tracker) (dp : TimeDataPair) (h2 : 2 ≤ N)
    (hq : QueueInv N c) :
    QueueInv N (pushStage N c dp) ∧ 1 ≤ QueueSize N (pushStage N c dp) := by
  obtain ⟨hb, he, hd, hm⟩ := hq
  by_cases hcase : QueueSize N c + 1 < N
  · obtain ⟨hlist, hsz, htot, hbeg, hendlt, _⟩ := pushStage_small N c dp hb he hcase
    refine ⟨⟨?_, hendlt, ?_, ?_⟩, by omega⟩
    · rw [hbeg]; exact hb
    · rw [hlist, htot]
      show c.dt_total.duration + dp.duration = _
      simp [durSum, hd]
    · rw [hlist, htot]
      show c.dt_total.measurement + dp.measurement = _
      simp [measSum, hm]
  · have heq : QueueSize N c + 1 = N := by
      have := QueueSize_lt N c (by omega)
      omega
    have hs1 : 1 ≤ QueueSize N c := by omega
    have hcons := queueList_cons N c hb he hs1
    obtain ⟨hlist, hsz, htot, _, _, hblt, helt, _⟩ :=
      pushStage_wrap N c dp h2 hb he heq
    refine ⟨⟨hblt, helt, ?_, ?_⟩, by omega⟩
    · rw [hlist, htot, hcons]
      show c.dt_total.duration + dp.duration - (QueueTop c).duration = _
      rw [hcons] at hd
      simp only [durSum, List.tail_cons, List.map_append, List.map_cons,
        List.map_nil, List.sum_append, List.sum_cons, List.sum_nil] at hd ⊢
      omega
    · rw [hlist, htot, hcons]
      show c.dt_total.measurement + dp.measurement - (QueueTop c).measurement = _
      rw [hcons] at hm
      simp only [measSum, List.tail_cons, List.map_append, List.map_cons,
        List.map_nil, List.sum_append, List.sum_cons, List.sum_nil] at hm ⊢
      omega

/-- Running the eviction loop with enough fuel on a nonempty invariant
window preserves the invariant, never empties the window, and stops with
the total duration minus the oldest retained duration strictly below the
window length. -/
lemma evictLoop_spec (N : ℕ) (window : Int) (h2 : 2 ≤ N) (hw : 0 < window) :
    ∀ fuel c, QueueInv N c → 1 ≤ QueueSize N c → QueueSize N c ≤ fuel →
      QueueInv N (evictLoop N window fuel c) ∧
      1 ≤ QueueSize N (evictLoop N window fuel c) ∧
      (evictLoop N window fuel c).dt_total.duration
        - (QueueTop (evictLoop N window fuel c)).duration < window := by
  intro fuel
  induction fuel with
  | zero => intro c _ hs hf; omega
  | succ f ih =>
    intro c hq hs hf
    by_cases hcond : window ≤ c.dt_total.duration - (QueueTop c).duration
    · obtain ⟨hb, he, hd, hm⟩ := hq
      have hcons := queueList_cons N c hb he hs
      have hspop : QueueSize N (popAndSub N c) = QueueSize N c - 1 := by
        unfold QueueSize
        exact size_dec N _ _ hb he hs
      have hs2 : 2 ≤ QueueSize N c := by
        by_contra hlt
        have hs1 : QueueSize N c = 1 := by omega
        have hnil : queueList N (popAndSub N c) = [] := by
          have hl := queueList_length N (popAndSub N c)
          rw [hspop, hs1] at hl
          exact List.length_eq_zero.mp hl
        rw [hcons, hnil] at hd
        simp [durSum] at hd
        omega
      have hqpop := queueInv_pop N c ⟨hb, he, hd, hm⟩ hs
      have hstep : evictLoop N window (f + 1) c
          = evictLoop N window f (popAndSub N c) := by
        simp only [evictLoop, if_pos hcond]
      rw [hstep]
      exact ih (popAndSub N c) hqpop (by omega) (by omega)
    · rw [evictLoop_stop N window c (f + 1) hcond]
      exact ⟨hq, hs, by omega⟩

/-- The combined push/evict/average stage preserves the invariant, keeps
the window nonempty, and establishes the post-eviction bound. -/
lemma countCoreFrom_spec (N : ℕ) (c : Tracker) (now : Int) (dp : TimeDataPair)
    (window : Int) (h2 : 2 ≤ N) (hq : QueueInv N c) (hw : 0 < window) :
    QueueInv N (CountCoreFrom N c now dp window) ∧
    1 ≤ QueueSize N (CountCoreFrom N c now dp window) ∧
    (CountCoreFrom N c now dp window).dt_total.duration
      - (QueueTop (CountCoreFrom N c now dp window)).duration < window ∧
    (CountCoreFrom N c now dp window).dt_avg =
      Int.tdiv (CountCoreFrom N c now dp window).dt_total.measurement
        (QueueSize N (CountCoreFrom N c now dp window)) ∧
    (CountCoreFrom N c now dp window).dt_std = none := by
  have hq0 : QueueInv N { c with last_time := now } := hq
  obtain ⟨hps, hps1⟩ := pushStage_inv N { c with last_time := now } dp h2 hq0
  have hlt := QueueSize_lt N (pushStage N { c with last_time := now } dp) (by omega)
  obtain ⟨h1, hmid, h3⟩ := evictLoop_spec N window h2 hw N
    (pushStage N { c with last_time := now } dp) hps hps1 (by omega)
  exact ⟨h1, hmid, h3, rfl, rfl⟩

/-- The queue-side projection of the full `Count`. -/
lemma Count_core (N : ℕ) (s : PerfState) (now : Int) (custom : Option Int)
    (ic : Bool) (window : Int) :
    (Count N s now custom ic window).core = CountCore N s.core now custom ic window := by
  unfold Count CountCore
  by_cases h : s.core.paused <;> simp [h]

/-- A reset state satisfies the full invariant. -/
lemma inv_reset (N : ℕ) (h2 : 2 ≤ N) (s : PerfState) (now : Int) :
    Inv N (Reset s now).core := by
  have hsz : QueueSize N (Reset s now).core = 0 := GetDifference_self N 0
  constructor
  · refine ⟨?_, ?_, ?_, ?_⟩
    · show (0 : Nat) < N
      omega
    · show (0 : Nat) < N
      omega
    · show (0 : Int) = _
      rw [queueList, hsz]
      simp [durSum]
    · show (0 : Int) = _
      rw [queueList, hsz]
      simp [measSum]
  · show (0 : Int) = Int.tdiv 0 _
    simp [Int.zero_tdiv]

/-- Every reachable state satisfies the full invariant: the running totals
agree with the retained window and the stored average is consistent. -/
lemma reach_inv (N : ℕ) (s : PerfState) (h2 : 2 ≤ N) (h : Reach N s) :
    Inv N s.core := by
  induction h with
  | init now => exact inv_reset N h2 _ now
  | reset s now _ _ => exact inv_reset N h2 s now
  | count s now custom ic window _ hw ih =>
    rw [Count_core]
    unfold CountCore
    by_cases hp : s.core.paused
    · simp only [if_pos hp]
      exact ih
    · simp only [if_neg hp]
      obtain ⟨hqi, _⟩ := ih
      obtain ⟨ha, _, _, hb, _⟩ :=
        countCoreFrom_spec N s.core now
          (dataPoint s.core now custom ic) window h2 hqi hw
      exact ⟨ha, hb⟩
  | pause s p now _ ih => exact ih
  | std s _ ih =>
    rcases hstd : s.core.dt_std with _ | v
    · by_cases hemp : s.core.dt_queue_begin = s.core.dt_queue_end
      · simp only [GetDtStd, hstd, if_pos hemp]
        exact ih
      · simp only [GetDtStd, hstd, if_neg hemp]
        exact ih
    · simp only [GetDtStd, hstd]
      exact ih

/-- The stddev accumulation loop computes the sum of squared deviations over
the `n` ring slots starting at `b`, provided the stop index is `n` steps
ahead, both are in range, and the fuel covers `n`. -/
lemma stdLoop_sum (N : ℕ) (q : Nat → TimeDataPair) (avg : Int) :
    ∀ n b fuel, b < N → n < N → n ≤ fuel →
      stdLoop N q ((b + n) % N) avg fuel b
        = (((List.range n).map (fun k => q ((b + k) % N))).map
            (fun p => (DTs (p.measurement - avg)) ^ 2)).sum := by
  intro n
  induction n with
  | zero =>
    intro b fuel hb _ _
    have hbb : (b + 0) % N = b := by rw [Nat.add_zero, Nat.mod_eq_of_lt hb]
    rw [hbb]
    cases fuel
    · simp [stdLoop]
    · simp [stdLoop]
  | succ m ih =>
    intro b fuel hb hn hf
    obtain ⟨f, rfl⟩ : ∃ f, fuel = f + 1 := ⟨fuel - 1, by omega⟩
    have hb0 : (b + 0) % N = b := by rw [Nat.add_zero, Nat.mod_eq_of_lt hb]
    have hne : b ≠ (b + (m + 1)) % N := by
      intro hcontra
      have := idx_inj N b 0 (m + 1) (by omega) (by omega)
        (by rw [hb0, ← hcontra])
      omega
    have hstep : stdLoop N q ((b + (m + 1)) % N) avg (f + 1) b
        = (DTs ((q b).measurement - avg)) ^ 2
          + stdLoop N q ((b + (m + 1)) % N) avg f ((b + 1) % N) := by
      simp only [stdLoop, IncrementIndex, if_neg hne]
    rw [hstep]
    have hshift : (b + (m + 1)) % N = ((b + 1) % N + m) % N := by
      rw [Nat.mod_add_mod, Nat.add_assoc, Nat.add_comm 1 m]
    rw [hshift, ih ((b + 1) % N) f (Nat.mod_lt _ (by omega)) (by omega) (by omega)]
    rw [List.range_succ_eq_map]
    simp only [List.map_cons, List.sum_cons, List.map_map, Function.comp_def,
      Nat.succ_eq_add_one]
    rw [hb0]
    congr 1
    congr 1
    apply List.map_congr_left
    intro k _
    have hidx : ((b + 1) % N + k) % N = (b + (k + 1)) % N := by
      rw [Nat.mod_add_mod, Nat.add_assoc, Nat.add_comm 1 k]
    rw [hidx]

/-- On an in-range ring state, the stddev loop run from the begin index with
fuel `N` equals the sum of squared deviations over the retained window. -/
lemma stdLoop_eq (N : ℕ) (c : Tracker) (h2 : 2 ≤ N)
    (hb : c.dt_queue_begin < N) (he : c.dt_queue_end < N) :
    stdLoop N c.dt_queue c.dt_queue_end c.dt_avg N c.dt_queue_begin
      = ((queueList N c).map
          (fun p => (DTs (p.measurement - c.dt_avg)) ^ 2)).sum := by
  have hsz := QueueSize_lt N c (by omega)
  have hend := end_eq_add N c.dt_queue_begin c.dt_queue_end hb he
  unfold queueList
  rw [hend]
  exact stdLoop_sum N c.dt_queue c.dt_avg (QueueSize N c) c.dt_queue_begin N
    hb hsz (le_of_lt hsz)

/-- C9: while the tracker is paused, every `Count` call is a no-op — it
returns the state unchanged (window contents, running totals, averages,
EMA, stddev cache and last-sample time all untouched), so the sample is
dropped rather than queued. -/
theorem C9_paused_count_noop (N : ℕ) (s : PerfState) (now : Int)
    (custom : Option Int) (ic : Bool) (window : Int)
    (hp : s.core.paused = true) :
    Count N s now custom ic window = s := by
  unfold Count
  rw [hp]
  simp

/-- Witness for C9 at a concrete paused state. -/
theorem C9_witness :
    exPaused.core.paused = true ∧ Count 4 exPaused 7 none false 10 = exPaused :=
  ⟨rfl, C9_paused_count_noop 4 exPaused 7 none false 10 rfl⟩

/-- C3: in every state reachable by any sequence of construction, `Reset`,
ingestion, pause transitions and accessor calls, the running totals equal
the exact element-wise sums of duration and measurement over the samples
retained between the begin and end ring indices. -/
theorem C3_totals_match_window (N : ℕ) (s : PerfState) (h2 : 2 ≤ N)
    (hr : Reach N s) :
    s.core.dt_total.duration = durSum (queueList N s.core) ∧
    s.core.dt_total.measurement = measSum (queueList N s.core) := by
  obtain ⟨⟨_, _, hd, hm⟩, _⟩ := reach_inv N s h2 hr
  exact ⟨hd, hm⟩

/-- Witness for C3 on a concrete reachable state (one ingestion after
construction). -/
theorem C3_witness :
    2 ≤ 4 ∧
    ((Count 4 (initState 0) 5 none false 10).core.dt_total.duration
        = durSum (queueList 4 (Count 4 (initState 0) 5 none false 10).core) ∧
      (Count 4 (initState 0) 5 none false 10).core.dt_total.measurement
        = measSum (queueList 4 (Count 4 (initState 0) 5 none false 10).core)) :=
  ⟨by norm_num,
    C3_totals_match_window 4 (Count 4 (initState 0) 5 none false 10)
      (by norm_num)
      (Reach.count (initState 0) 5 none false 10 (Reach.init 0) (by norm_num))⟩

/-- C2: a non-paused ingestion pops the oldest sample exactly while
`total_duration - oldest.duration ≥ window` (the eviction loop of the
embedding), so after `Count` returns the window is nonempty and the total
duration minus the oldest retained sample's duration is strictly below the
window length. -/
theorem C2_eviction_rule (N : ℕ) (s : PerfState) (now : Int)
    (custom : Option Int) (ic : Bool) (window : Int) (h2 : 2 ≤ N)
    (hr : Reach N s) (hp : s.core.paused = false) (hw : 0 < window) :
    1 ≤ QueueSize N (Count N s now custom ic window).core ∧
    (Count N s now custom ic window).core.dt_total.duration
      - (QueueTop (Count N s now custom ic window).core).duration < window := by
  obtain ⟨hqi, _⟩ := reach_inv N s h2 hr
  rw [Count_core]
  unfold CountCore
  rw [hp]
  simp only [Bool.false_eq_true, if_false]
  obtain ⟨_, hs1, hlt, _, _⟩ :=
    countCoreFrom_spec N s.core now (dataPoint s.core now custom ic) window h2 hqi hw
  exact ⟨hs1, hlt⟩

/-- Witness for C2 at a concrete reachable state. -/
theorem C2_witness :
    (initState 0).core.paused = false ∧ (0 : Int) < 10 ∧
    (1 ≤ QueueSize 4 (Count 4 (initState 0) 6 none false 10).core ∧
      (Count 4 (initState 0) 6 none false 10).core.dt_total.duration
        - (QueueTop (Count 4 (initState 0) 6 none false 10).core).duration < 10) :=
  ⟨rfl, by norm_num,
    C2_eviction_rule 4 (initState 0) 6 none false 10 (by norm_num)
      (Reach.init 0) rfl (by norm_num)⟩

/-- C4: a reachable window never holds more samples than the fixed capacity
(the ring size stays strictly below `N`), and a non-paused `Count` always
leaves the window nonempty — the eviction pass never removes the last
remaining sample. -/
theorem C4_capacity_and_nonempty (N : ℕ) (s : PerfState) (now : Int)
    (custom : Option Int) (ic : Bool) (window : Int) (h2 : 2 ≤ N)
    (hr : Reach N s) (hp : s.core.paused = false) (hw : 0 < window) :
    QueueSize N s.core < N ∧
    1 ≤ QueueSize N (Count N s now custom ic window).core := by
  obtain ⟨hqi, _⟩ := reach_inv N s h2 hr
  refine ⟨QueueSize_lt N s.core (by omega), ?_⟩
  rw [Count_core]
  unfold CountCore
  rw [hp]
  simp only [Bool.false_eq_true, if_false]
  obtain ⟨_, hs1, _, _, _⟩ :=
    countCoreFrom_spec N s.core now (dataPoint s.core now custom ic) window h2 hqi hw
  exact hs1

/-- Witness for C4 at a concrete reachable state. -/
theorem C4_witness :
    (initState 0).core.paused = false ∧ (0 : Int) < 7 ∧
    (QueueSize 4 (initState 0).core < 4 ∧
      1 ≤ QueueSize 4 (Count 4 (initState 0) 3 none false 7).core) :=
  ⟨rfl, by norm_num,
    C4_capacity_and_nonempty 4 (initState 0) 3 none false 7 (by norm_num)
      (Reach.init 0) rfl (by norm_num)⟩

/-- Counterexample to C5 as stated: in the spec's own scenario (window 10,
three pushed samples of duration 4 with measurement = duration), the third
push leaves total duration 12 and oldest duration 4, so the eviction
condition `12 - 4 = 8 ≥ 10` is false and nothing is evicted: the window
holds 3 samples with total 12, not 2 samples with total 8. -/
theorem C5_counterexample :
    QueueSize 8 exC5 = 3 ∧ exC5.dt_total.duration = 12 ∧
    ¬ (QueueSize 8 exC5 = 2 ∧ exC5.dt_total.duration = 8) := by
  refine ⟨?_, ?_, ?_⟩ <;> decide

/-- C5 (amended): with window length 10, pushing three samples of duration
4 each (measurement = duration, from an empty window) leaves, after the
third push, exactly 3 samples in the window with total duration 12 and
simple moving average 4; no eviction occurs because removing the oldest
would leave 8, which is below the window length. -/
theorem C5_amended :
    queueList 8 exC5 = [⟨4, 4⟩, ⟨4, 4⟩, ⟨4, 4⟩] ∧ QueueSize 8 exC5 = 3 ∧
    exC5.dt_total.duration = 12 ∧ exC5.dt_avg = 4 := by
  refine ⟨?_, ?_, ?_, ?_⟩ <;> decide

/-- Counterexample to C8 as stated: a reachable ingestion does silently
discard the oldest sample when the push wraps the ring to capacity, with no
assertion.  Four unit-duration ingestions into a capacity-4 ring under a
window of 10^9 (so the duration-based eviction rule never fires) retain
only 3 samples and total duration 3, not 4: the fourth push made the end
index catch the begin index and `Count` silently popped the oldest. -/
theorem C8_counterexample :
    QueueSize 4 exC8 = 3 ∧ exC8.dt_total.duration = 3 ∧
    queueList 4 exC8 = [⟨1, 1⟩, ⟨1, 1⟩, ⟨1, 1⟩] := by
  refine ⟨?_, ?_, ?_⟩ <;> decide

/-- C8 (amended): `QueuePush` itself never overwrites a live slot, but
exceeding capacity is not asserted: when an insertion wraps the ring to
capacity (begin index equals end index after the push), `Count` silently
pops the oldest sample, leaving the old tail plus the new sample and size
capacity minus one. -/
theorem C8_amended (N : ℕ) (c : Tracker) (dp : TimeDataPair) (h2 : 2 ≤ N)
    (hq : QueueInv N c) (hfull : QueueSize N c + 1 = N) :
    queueList N (pushStage N c dp) = (queueList N c).tail ++ [dp] ∧
    QueueSize N (pushStage N c dp) = N - 1 := by
  obtain ⟨hb, he, _, _⟩ := hq
  obtain ⟨h1', h2', _⟩ := pushStage_wrap N c dp h2 hb he hfull
  exact ⟨h1', h2'⟩

/-- Witness for the amended C8 at a concrete full ring. -/
theorem C8_witness :
    QueueInv 4 exFull ∧ QueueSize 4 exFull + 1 = 4 ∧
    (queueList 4 (pushStage 4 exFull ⟨7, 7⟩)
        = (queueList 4 exFull).tail ++ [⟨7, 7⟩] ∧
      QueueSize 4 (pushStage 4 exFull ⟨7, 7⟩) = 3) :=
  ⟨by decide, by decide,
    C8_amended 4 exFull ⟨7, 7⟩ (by norm_num) (by decide) (by decide)⟩

/-- Counterexample to C1 as stated: a fresh tracker ingests one sample at
time 16 with custom measurement 50 (plain mode), so the window holds
`(duration = 16, measurement = 50)`.  The rate fed into the EMA divides by
the measurement total (50), not by the duration total (16) as the claim
says. -/
theorem C1_counterexample :
    instantHz 8 exC1 ≠
      FVal.fin ((QueueSize 8 exC1 : ℝ) / DTs exC1.dt_total.duration) := by
  have h1 : exC1.dt_total = ⟨16, 50⟩ := by decide
  have h2 : QueueSize 8 exC1 = 1 := by decide
  simp only [instantHz, h1, h2]
  norm_num [DTs, FVal.fin.injEq]

/-- C1 (amended): after every non-paused ingestion the rate fed into the
EMA equals the number of retained samples divided by the sum of the
retained measurements (in seconds) — not by the duration total — and when
the measurement total is zero the fed rate is the non-finite class (IEEE
infinity from division by zero), not 0. -/
theorem C1_amended (N : ℕ) (s : PerfState) (now : Int) (custom : Option Int)
    (ic : Bool) (window : Int) (h2 : 2 ≤ N) (hr : Reach N s)
    (hp : s.core.paused = false) (hw : 0 < window) :
    ((CountCore N s.core now custom ic window).dt_total.measurement ≠ 0 →
      (Count N s now custom ic window).hz_avg =
        emaStep s.hz_avg (alphaOf window (dataPoint s.core now custom ic).duration)
          (FVal.fin ((QueueSize N (CountCore N s.core now custom ic window) : ℝ) /
            DTs (measSum (queueList N (CountCore N s.core now custom ic window)))))) ∧
    ((CountCore N s.core now custom ic window).dt_total.measurement = 0 →
      (Count N s now custom ic window).hz_avg =
        emaStep s.hz_avg (alphaOf window (dataPoint s.core now custom ic).duration)
          FVal.nonfin) := by
  obtain ⟨hqi, _⟩ := reach_inv N s h2 hr
  have hcc : CountCore N s.core now custom ic window
      = CountCoreFrom N s.core now (dataPoint s.core now custom ic) window := by
    unfold CountCore
    rw [hp]
    simp
  have hhz : (Count N s now custom ic window).hz_avg
      = emaStep s.hz_avg (alphaOf window (dataPoint s.core now custom ic).duration)
          (instantHz N (CountCoreFrom N s.core now (dataPoint s.core now custom ic) window)) := by
    unfold Count
    rw [hp]
    simp
  obtain ⟨⟨_, _, _, hmeq⟩, _, _, _, _⟩ :=
    countCoreFrom_spec N s.core now (dataPoint s.core now custom ic) window h2 hqi hw
  constructor
  · intro hne
    rw [hcc] at hne ⊢
    rw [hhz]
    congr 1
    unfold instantHz
    rw [if_neg hne, hmeq]
  · intro heq
    rw [hcc] at heq
    rw [hhz]
    congr 1
    unfold instantHz
    rw [if_pos heq]

/-- Witness for the amended C1 at a concrete input (custom measurement 50,
elapsed 16). -/
theorem C1_witness :
    (CountCore 8 (initState 0).core 16 (some 50) false 1000000).dt_total.measurement ≠ 0 ∧
    (Count 8 (initState 0) 16 (some 50) false 1000000).hz_avg =
      emaStep (initState 0).hz_avg
        (alphaOf 1000000 (dataPoint (initState 0).core 16 (some 50) false).duration)
        (FVal.fin ((QueueSize 8 (CountCore 8 (initState 0).core 16 (some 50) false 1000000) : ℝ) /
          DTs (measSum (queueList 8 (CountCore 8 (initState 0).core 16 (some 50) false 1000000))))) :=
  ⟨by decide,
    (C1_amended 8 (initState 0) 16 (some 50) false 1000000 (by norm_num)
      (Reach.init 0) rfl (by norm_num)).1 (by decide)⟩

/-- C7: a non-paused ingestion updates the EMA by the one-pole filter with
time constant `0.33 × window`: with smoothing factor
`α = 1 − exp(−(duration of this sample) / (0.33 × window))`, a finite old
EMA moves to `old + α × (rate − old)`, and a non-finite old EMA is
hard-reset to the instantaneous rate (here stated when the rate is finite,
i.e. the retained measurement total is nonzero; the sample duration is the
wall elapsed time except in continuous-duration mode, where it is the
supplied value). -/
theorem C7_one_pole_filter (N : ℕ) (s : PerfState) (now : Int)
    (custom : Option Int) (ic : Bool) (window : Int)
    (hp : s.core.paused = false)
    (hm : (CountCore N s.core now custom ic window).dt_total.measurement ≠ 0) :
    (∀ v, s.hz_avg = FVal.fin v →
      (Count N s now custom ic window).hz_avg =
        FVal.fin (v + alphaOf window (dataPoint s.core now custom ic).duration *
          ((QueueSize N (CountCore N s.core now custom ic window) : ℝ) /
            DTs (CountCore N s.core now custom ic window).dt_total.measurement - v))) ∧
    (s.hz_avg = FVal.nonfin →
      (Count N s now custom ic window).hz_avg =
        FVal.fin ((QueueSize N (CountCore N s.core now custom ic window) : ℝ) /
          DTs (CountCore N s.core now custom ic window).dt_total.measurement)) := by
  have hcc : CountCore N s.core now custom ic window
      = CountCoreFrom N s.core now (dataPoint s.core now custom ic) window := by
    unfold CountCore
    rw [hp]
    simp
  have hhz : (Count N s now custom ic window).hz_avg
      = emaStep s.hz_avg (alphaOf window (dataPoint s.core now custom ic).duration)
          (instantHz N (CountCoreFrom N s.core now (dataPoint s.core now custom ic) window)) := by
    unfold Count
    rw [hp]
    simp
  rw [hcc] at hm
  constructor
  · intro v hv
    rw [hcc, hhz, hv]
    unfold instantHz
    rw [if_neg hm]
    rfl
  · intro hv
    rw [hcc, hhz, hv]
    unfold instantHz
    rw [if_neg hm]
    rfl

/-- Witness for C7 at a concrete input (finite old EMA 0, elapsed 16). -/
theorem C7_witness :
    (initState 0).core.paused = false ∧
    (CountCore 8 (initState 0).core 16 none false 1000000).dt_total.measurement ≠ 0 ∧
    (Count 8 (initState 0) 16 none false 1000000).hz_avg =
      FVal.fin (0 + alphaOf 1000000 (dataPoint (initState 0).core 16 none false).duration *
        ((QueueSize 8 (CountCore 8 (initState 0).core 16 none false 1000000) : ℝ) /
          DTs (CountCore 8 (initState 0).core 16 none false 1000000).dt_total.measurement - 0)) :=
  ⟨rfl, by decide,
    (C7_one_pole_filter 8 (initState 0) 16 none false 1000000 rfl (by decide)).1 0 rfl⟩

/-- C6: `GetDtStd` returns 0 on an empty window; on a cache miss with a
nonempty window it returns the weighted population standard deviation of
the retained measurements against the stored simple moving average, with
denominator the window sample count (scaled to ticks and truncated), and
caches that value; the cache is invalidated by every non-paused ingestion;
and for a window of equal measurements it returns 0 for every window
size. -/
theorem C6_stddev_cache (N : ℕ) (s : PerfState) (h2 : 2 ≤ N)
    (hInv : Inv N s.core) (hmiss : s.core.dt_std = none) :
    (QueueEmpty s.core = true → (GetDtStd N s.core).2 = 0) ∧
    (QueueEmpty s.core = false →
      (GetDtStd N s.core).2 =
        Int.floor (Real.sqrt ((((queueList N s.core).map
          (fun p => (DTs (p.measurement - s.core.dt_avg)) ^ 2)).sum)
            / (QueueSize N s.core : ℝ)) * 1000000000) ∧
      (GetDtStd N s.core).1.dt_std = some ((GetDtStd N s.core).2)) ∧
    (∀ now custom ic window, s.core.paused = false →
      (Count N s now custom ic window).core.dt_std = none) ∧
    (∀ m : Int, (∀ p ∈ queueList N s.core, p.measurement = m) →
      (GetDtStd N s.core).2 = 0) := by
  obtain ⟨⟨hb, he, hd, hmeas⟩, havg⟩ := hInv
  refine ⟨?_, ?_, ?_, ?_⟩
  · intro hemp
    have hbe : s.core.dt_queue_begin = s.core.dt_queue_end := by
      simpa [QueueEmpty] using hemp
    simp [GetDtStd, hmiss, hbe]
  · intro hnemp
    have hbe : ¬ (s.core.dt_queue_begin = s.core.dt_queue_end) := by
      simpa [QueueEmpty] using hnemp
    simp only [GetDtStd, hmiss, if_neg hbe]
    rw [stdLoop_eq N s.core h2 hb he]
    exact ⟨rfl, trivial⟩
  · intro now custom ic window hp
    rw [Count_core]
    unfold CountCore
    rw [hp]
    simp only [Bool.false_eq_true, if_false]
    rfl
  · intro m hall
    by_cases hbe : s.core.dt_queue_begin = s.core.dt_queue_end
    · simp [GetDtStd, hmiss, hbe]
    · have hs1 : 1 ≤ QueueSize N s.core := by
        rcases Nat.eq_zero_or_pos (QueueSize N s.core) with h0 | h0
        · exact absurd (GetDifference_eq_zero N _ _ hb he h0) hbe
        · omega
      have hlen : (queueList N s.core).length = QueueSize N s.core :=
        queueList_length N s.core
      have hmap : (queueList N s.core).map TimeDataPair.measurement
          = (queueList N s.core).map (fun _ => m) := by
        apply List.map_congr_left
        intro p hp2
        exact hall p hp2
      have hmsum : measSum (queueList N s.core) = m * (QueueSize N s.core : Int) := by
        unfold measSum
        rw [hmap, List.map_const', List.sum_replicate, hlen, nsmul_eq_mul]
        ring
      have havg' : s.core.dt_avg = m := by
        rw [havg, hmeas, hmsum]
        exact Int.mul_tdiv_cancel m (by exact_mod_cast (by omega : QueueSize N s.core ≠ 0))
      simp only [GetDtStd, hmiss, if_neg hbe]
      rw [stdLoop_eq N s.core h2 hb he]
      have hmap0 : (queueList N s.core).map
          (fun p => (DTs (p.measurement - s.core.dt_avg)) ^ 2)
          = (queueList N s.core).map (fun _ => (0 : ℝ)) := by
        apply List.map_congr_left
        intro p hp2
        rw [hall p hp2, havg']
        simp [DTs]
      rw [hmap0, List.map_const', List.sum_replicate]
      simp

/-- Witness for C6 at a concrete two-sample window with equal
measurements. -/
theorem C6_witness :
    Inv 4 exEq.core ∧ exEq.core.dt_std = none ∧ (GetDtStd 4 exEq.core).2 = 0 :=
  ⟨by decide, rfl,
    (C6_stddev_cache 4 exEq (by norm_num) (by decide) rfl).2.2.2 5 (by decide)⟩

end PerfTrack
